import Mathlib

/-!
Shallow embedding of the configuration-validation core of `cargo-mobile`
(BrainiumLLC/cargo-mobile): string syntax checks for domains, version-string
parsing, project-directory containment checks, and path prefix utilities.

Rust strings are embedded as `List Char` (Rust iterates chars as Unicode
scalar values, which is exactly Lean's `Char`).  Machine integers (`u32`)
are embedded as `Nat` together with explicit `< 2^32` bounds where they
matter.  Fallible Rust functions returning `Result` are embedded as
`Except`.
-/

namespace CargoMobile

/-- Bound of Rust's `u32` type: `2 ^ 32`. -/
def u32Size : Nat := 4294967296

/-- Value of an ASCII decimal digit character, embedding Rust's
`char::to_digit(10)` (which accepts only `'0'..='9'`). -/
def digitVal (c : Char) : Option Nat :=
  if '0' ≤ c ∧ c ≤ '9' then some (c.toNat - '0'.toNat) else none

/-- Accumulating decimal parser over a character list, embedding the digit
loop of Rust's `u32::from_str` (overflow is checked afterwards via
`u32Size`; with arbitrary-precision accumulation the final value exceeds
`u32Size` exactly when some intermediate step would have overflowed,
because the accumulator is monotone). -/
def parseDigitsAux (acc : Nat) : List Char → Option Nat
  | [] => some acc
  | c :: cs =>
    match digitVal c with
    | some d => parseDigitsAux (10 * acc + d) cs
    | none => none

/-- Embedding of Rust's `str::parse::<u32>()`: an optional leading `'+'`,
then one or more ASCII decimal digits, value below `2 ^ 32`.  A leading
`'-'` or any other non-digit yields `none` (Rust's `ParseIntError`). -/
def parseU32 (s : List Char) : Option Nat :=
  let t := if s.head? = some '+' then s.tail else s
  if t = [] then none
  else
    match parseDigitsAux 0 t with
    | some v => if v < u32Size then some v else none
    | none => none

/-- Character for a single decimal digit `d < 10` (ASCII `'0' + d`). -/
def digitChar (d : Nat) : Char := Char.ofNat (48 + d)

/-- Embedding of Rust's `Display for u32`: decimal digits, most significant
first, no sign and no leading zeros (except for `0` itself). -/
def natToChars (n : Nat) : List Char :=
  if _h : n < 10 then [digitChar n]
  else natToChars (n / 10) ++ [digitChar (n % 10)]
  termination_by n
  decreasing_by exact Nat.div_lt_self (by omega) (by omega)

/-- Embedding of Rust's `str::split(sep)` over characters: splitting always
yields at least one (possibly empty) piece, and adjacent separators yield
empty pieces, exactly as in Rust. -/
def splitOnChar (sep : Char) : List Char → List (List Char)
  | [] => [[]]
  | c :: cs =>
    if c = sep then [] :: splitOnChar sep cs
    else
      match splitOnChar sep cs with
      | [] => [[c]]
      | p :: ps => (c :: p) :: ps

/-! ### Version types (`src/util/mod.rs`, `src/apple/version_number.rs`) -/

/-- Errors of `VersionTriple` parsing (`VersionTripleError` in
`src/util/mod.rs`); the Rust variants also carry a `ParseIntError` source,
which is not modelled. -/
inductive VersionTripleError
  | majorInvalid (version : List Char)
  | minorInvalid (version : List Char)
  | patchInvalid (version : List Char)
  | versionStringInvalid (version : List Char)
  deriving DecidableEq, Repr

/-- Embedding of `util::VersionTriple`; the `u32` fields are `Nat` with
explicit bounds where relevant. -/
structure VersionTriple where
  major : Nat
  minor : Nat
  patch : Nat
  deriving DecidableEq, Repr

/-- Embedding of `VersionTriple::from_split`, which consumes the next three
items of a `split(".")` iterator (here given explicitly) and reports the
first failing component. -/
def VersionTriple.fromSplit (a b c : List Char) (v : List Char) :
    Except VersionTripleError VersionTriple :=
  match parseU32 a with
  | none => .error (.majorInvalid v)
  | some major =>
    match parseU32 b with
    | none => .error (.minorInvalid v)
    | some minor =>
      match parseU32 c with
      | none => .error (.patchInvalid v)
      | some patch => .ok ⟨major, minor, patch⟩

/-- Embedding of `VersionTriple::from_str`: match on the number of
dot-separated components; omitted minor/patch default to `0`; four or more
components are rejected outright. -/
def VersionTriple.fromStr (v : List Char) : Except VersionTripleError VersionTriple :=
  match splitOnChar '.' v with
  | [a] =>
    match parseU32 a with
    | none => .error (.majorInvalid v)
    | some major => .ok ⟨major, 0, 0⟩
  | [a, b] =>
    match parseU32 a with
    | none => .error (.majorInvalid v)
    | some major =>
      match parseU32 b with
      | none => .error (.minorInvalid v)
      | some minor => .ok ⟨major, minor, 0⟩
  | [a, b, c] => VersionTriple.fromSplit a b c v
  | _ => .error (.versionStringInvalid v)

/-- Display form of a `VersionTriple` (`impl Display for VersionTriple`):
`major.minor.patch` in decimal. -/
def VersionTriple.display (t : VersionTriple) : List Char :=
  natToChars t.major ++ ('.' :: (natToChars t.minor ++ ('.' :: natToChars t.patch)))

/-- Errors of `VersionDouble` parsing (`VersionDoubleError`). -/
inductive VersionDoubleError
  | majorInvalid (version : List Char)
  | minorInvalid (version : List Char)
  | versionStringInvalid (version : List Char)
  deriving DecidableEq, Repr

/-- Embedding of `util::VersionDouble`. -/
structure VersionDouble where
  major : Nat
  minor : Nat
  deriving DecidableEq, Repr

/-- Embedding of `VersionDouble::from_str`: one or two dot-separated
components, omitted minor defaulting to `0`. -/
def VersionDouble.fromStr (v : List Char) : Except VersionDoubleError VersionDouble :=
  match splitOnChar '.' v with
  | [a] =>
    match parseU32 a with
    | none => .error (.majorInvalid v)
    | some major => .ok ⟨major, 0⟩
  | [a, b] =>
    match parseU32 a with
    | none => .error (.majorInvalid v)
    | some major =>
      match parseU32 b with
      | none => .error (.minorInvalid v)
      | some minor => .ok ⟨major, minor⟩
  | _ => .error (.versionStringInvalid v)

/-- Errors of `VersionNumber` parsing (`VersionNumberError` in
`src/apple/version_number.rs`). -/
inductive VersionNumberError
  | versionTripleInvalid (e : VersionTripleError)
  | extraVersionInvalid (version : List Char)
  deriving DecidableEq, Repr

/-- Embedding of `apple::version_number::VersionNumber`: a leading triple
plus optional extra components. -/
structure VersionNumber where
  triple : VersionTriple
  extra : Option (List Nat)
  deriving DecidableEq, Repr

/-- Display form of the extra components: a leading dot before each one
(the loop in `impl Display for VersionNumber`). -/
def displayExtras : List Nat → List Char
  | [] => []
  | n :: ns => '.' :: (natToChars n ++ displayExtras ns)

/-- Display form of a `VersionNumber` (`impl Display for VersionNumber`):
the triple, then `.n` for each extra component (nothing when `extra` is
`None`). -/
def VersionNumber.display (v : VersionNumber) : List Char :=
  v.triple.display ++
    match v.extra with
    | none => []
    | some extra => displayExtras extra

/-- Parsing of the extra components after the leading triple: the
`collect::<Result<Vec<_>, _>>()` in `VersionNumber::from_str`, stopping at
the first failure. -/
def parseExtras (v : List Char) : List (List Char) → Except VersionNumberError (List Nat)
  | [] => .ok []
  | e :: es =>
    match parseU32 e with
    | none => .error (.extraVersionInvalid v)
    | some n =>
      match parseExtras v es with
      | .error err => .error err
      | .ok ns => .ok (n :: ns)

/-- Embedding of `VersionNumber::from_str`: up to three components parse as
a bare triple with `extra = None`; four or more parse the first three as
the triple and the rest as extra components.  (The zero-component case is
`unreachable!` in Rust, and indeed `splitOnChar` never returns `[]`; the
value chosen for it here is immaterial.) -/
def VersionNumber.fromStr (v : List Char) : Except VersionNumberError VersionNumber :=
  let parts := splitOnChar '.' v
  if parts.length ≤ 3 then
    match VersionTriple.fromStr v with
    | .error e => .error (.versionTripleInvalid e)
    | .ok t => .ok ⟨t, none⟩
  else
    match parts with
    | a :: b :: c :: rest =>
      match VersionTriple.fromSplit a b c v with
      | .error e => .error (.versionTripleInvalid e)
      | .ok t =>
        match parseExtras v rest with
        | .error e => .error e
        | .ok ns => .ok ⟨t, some ns⟩
    | _ => .error (.versionTripleInvalid (.versionStringInvalid v))

/-! ### Domain syntax (`src/config/app/domain.rs`) -/

/-- Component list of a Rust path string, split on `/`.  Empty components
(doubled or trailing slashes) are skipped by normalization below. -/
def strComponents (s : List Char) : List (List Char) := splitOnChar '/' s

/-- Whether a path string is absolute (starts with `/`). -/
def isAbsStr (s : List Char) : Bool := s.head? = some '/'

/-- Worker for lexical path normalization: skip empty and `.` components,
let `..` pop the last resolved component and fail when there is nothing
left to pop (the filesystem root would be crossed), keep normal
components. -/
def normalizeAbsAux (acc : List (List Char)) : List (List Char) → Option (List (List Char))
  | [] => some acc
  | comp :: rest =>
    if comp = [] || comp = ['.'] then normalizeAbsAux acc rest
    else if comp = ['.', '.'] then
      match acc with
      | [] => none
      | _ :: _ => normalizeAbsAux acc.dropLast rest
    else normalizeAbsAux (acc ++ [comp]) rest

/-- Lexical normalization of an absolute path given as a component list
(components below the filesystem root).  This embeds the `PathAbs` branch
of `normalize_path` — the `path_abs` crate resolves `.`/`..` lexically and
fails when `..` ascends past the root; `canonicalize`, used for existing
paths, agrees in the absence of symlinks, so the model is filesystem-free. -/
def normalizeAbs (comps : List (List Char)) : Option (List (List Char)) :=
  normalizeAbsAux [] comps

/-- Embedding of `util::under_root`: join the candidate directory string to
the (absolute, canonical) root, normalize, and test whether the result
still starts with the root.  `none` models a `NormalizationError`.  Joining
an absolute string replaces the root, as `Path::join` does. -/
def underRoot (dir : List Char) (root : List (List Char)) : Option Bool :=
  let joined := if isAbsStr dir then strComponents dir else root ++ strComponents dir
  (normalizeAbs joined).map (fun norm => root.isPrefixOf norm)

/-! ### App (modelled) and platform configs
(`src/android/config.rs`, `src/apple/config/mod.rs`) -/

/-- Modelled from the spec: the `App` configuration type — `config/app/mod.rs`
is not among the sources, and only its app-root accessor `root_dir()` is
needed by the platform `from_raw` functions embedded below.  The spec
defines the app root as the location under which generated native projects
are written; it is an absolute, canonicalized directory, kept as a
component list. -/
structure App where
  rootDir : List (List Char)
  deriving DecidableEq, Repr

/-- Embedding of `android::config::ProjectDirInvalid`. -/
inductive AndroidProjectDirInvalid
  | normalizationFailed (projectDir : List Char)
  | outsideOfAppRoot (projectDir : List Char) (rootDir : List (List Char))
  | containsSpaces (projectDir : List Char)
  deriving DecidableEq, Repr

/-- Embedding of `android::config::Error`. -/
inductive AndroidError
  | projectDirInvalid (e : AndroidProjectDirInvalid)
  deriving DecidableEq, Repr

/-- Embedding of `android::config::Raw` (serde defaults make every field
optional; `Default` yields all-`None`). -/
structure AndroidRaw where
  minSdkVersion : Option Nat := none
  vulkanValidation : Option Bool := none
  projectDir : Option (List Char) := none
  noDefaultFeatures : Option Bool := none
  features : Option (List (List Char)) := none
  deriving DecidableEq, Repr

/-- Embedding of `Default for Raw` (android). -/
def androidRawDefault : AndroidRaw := {}

/-- Default minimum SDK version (`DEFAULT_MIN_SDK_VERSION`). -/
def DEFAULT_MIN_SDK_VERSION : Nat := 24

/-- Default Vulkan validation flag (`DEFAULT_VULKAN_VALIDATION`). -/
def DEFAULT_VULKAN_VALIDATION : Bool := true

/-- Default Android project directory (`DEFAULT_PROJECT_DIR` of
`android/config.rs`). -/
def ANDROID_DEFAULT_PROJECT_DIR : List Char := "gen/android".toList

/-- Embedding of `android::config::Config` (the validated config). -/
structure AndroidConfig where
  app : App
  minSdkVersion : Nat
  vulkanValidation : Bool
  projectDir : List Char
  deriving DecidableEq, Repr

/-- Embedding of `android::config::Config::from_raw`. -/
def AndroidConfig.fromRaw (app : App) (raw? : Option AndroidRaw) :
    Except AndroidError AndroidConfig :=
  let raw := raw?.getD androidRawDefault
  let minSdkVersion := raw.minSdkVersion.getD DEFAULT_MIN_SDK_VERSION
  let vulkanValidation := raw.vulkanValidation.getD DEFAULT_VULKAN_VALIDATION
  match raw.projectDir with
  | some projectDir =>
    match underRoot projectDir app.rootDir with
    | none => .error (.projectDirInvalid (.normalizationFailed projectDir))
    | some true =>
      if !projectDir.contains ' ' then
        .ok ⟨app, minSdkVersion, vulkanValidation, projectDir⟩
      else .error (.projectDirInvalid (.containsSpaces projectDir))
    | some false =>
      .error (.projectDirInvalid (.outsideOfAppRoot projectDir app.rootDir))
  | none => .ok ⟨app, minSdkVersion, vulkanValidation, ANDROID_DEFAULT_PROJECT_DIR⟩

/-- Embedding of `apple::config::ProjectDirInvalid` (note: no
`ContainsSpaces` variant exists on the Apple side). -/
inductive AppleProjectDirInvalid
  | normalizationFailed (projectDir : List Char)
  | outsideOfAppRoot (projectDir : List Char) (rootDir : List (List Char))
  deriving DecidableEq, Repr

/-- Embedding of `apple::config::Error`. -/
inductive AppleError
  | developmentTeamMissing
  | developmentTeamEmpty
  | projectDirInvalid (e : AppleProjectDirInvalid)
  | bundleVersionInvalid (e : VersionTripleError)
  | iosVersionInvalid (e : VersionDoubleError)
  | macOsVersionInvalid (e : VersionDoubleError)
  | iosVersionNumberInvalid (e : VersionNumberError)
  | iosVersionNumberMismatch
  | invalidVersionConfiguration
  deriving DecidableEq, Repr

/-- Embedding of `apple::config::VersionInfo`. -/
structure VersionInfo where
  versionNumber : Option VersionNumber
  shortVersionNumber : Option VersionTriple
  deriving DecidableEq, Repr

/-- Transposed parse of the optional long version string
(`version_string.as_deref().map(VersionNumber::from_str).transpose()`). -/
def parseOptVersionNumber : Option (List Char) → Except AppleError (Option VersionNumber)
  | none => .ok none
  | some s =>
    match VersionNumber.fromStr s with
    | .error e => .error (.iosVersionNumberInvalid e)
    | .ok n => .ok (some n)

/-- Transposed parse of the optional short version string
(`short_version_string.as_deref().map(VersionTriple::from_str).transpose()`). -/
def parseOptVersionTriple : Option (List Char) → Except AppleError (Option VersionTriple)
  | none => .ok none
  | some s =>
    match VersionTriple.fromStr s with
    | .error e => .error (.bundleVersionInvalid e)
    | .ok t => .ok (some t)

/-- Embedding of `VersionInfo::from_raw`. -/
def VersionInfo.fromRaw (versionString shortVersionString : Option (List Char)) :
    Except AppleError VersionInfo :=
  match parseOptVersionNumber versionString with
  | .error e => .error e
  | .ok versionNumber =>
    match parseOptVersionTriple shortVersionString with
    | .error e => .error e
    | .ok shortVersionNumber =>
      if shortVersionNumber.isSome && versionNumber.isNone then
        .error .invalidVersionConfiguration
      else
        match versionNumber, shortVersionNumber with
        | some vn, some svn =>
          if vn.triple ≠ svn then .error .iosVersionNumberMismatch
          else .ok ⟨some vn, some svn⟩
        | vn, svn => .ok ⟨vn, svn⟩

/-- Modelled from the spec: `PListPair` (its defining source file is not
present; it is an opaque key/value pair destined for the Info.plist, and
its content plays no role in validation). -/
structure PListPair where
  key : List Char
  value : List Char
  deriving DecidableEq, Repr

/-- Embedding of the raw Apple section as consumed by
`apple::config::Config::from_raw` (the `Raw` declaration in
`apple/config/raw.rs` predates the version fields that `from_raw`
destructures; the fields here are exactly the ones `from_raw` reads). -/
structure AppleRaw where
  developmentTeam : List Char
  projectDir : Option (List Char) := none
  bundleVersion : Option (List Char) := none
  bundleVersionShort : Option (List Char) := none
  iosVersion : Option (List Char) := none
  macosVersion : Option (List Char) := none
  useLegacyBuildSystem : Option Bool := none
  plistPairs : Option (List PListPair) := none
  enableBitcode : Option Bool := none
  deriving DecidableEq, Repr

/-- Default Apple project directory (`DEFAULT_PROJECT_DIR` of
`apple/config/mod.rs`). -/
def APPLE_DEFAULT_PROJECT_DIR : List Char := "gen/apple".toList

/-- Default bundle version (`DEFAULT_BUNDLE_VERSION`): `1.0.0`. -/
def DEFAULT_BUNDLE_VERSION : VersionNumber := ⟨⟨1, 0, 0⟩, none⟩

/-- Default iOS version (`DEFAULT_IOS_VERSION`): `9.0`. -/
def DEFAULT_IOS_VERSION : VersionDouble := ⟨9, 0⟩

/-- Default macOS version (`DEFAULT_MACOS_VERSION`): `11.0`. -/
def DEFAULT_MACOS_VERSION : VersionDouble := ⟨11, 0⟩

/-- Embedding of `apple::config::Config` (the validated config). -/
structure AppleConfig where
  app : App
  developmentTeam : List Char
  projectDir : List Char
  bundleVersion : VersionNumber
  bundleVersionShort : VersionTriple
  iosVersion : VersionDouble
  macosVersion : VersionDouble
  useLegacyBuildSystem : Bool
  plistPairs : List PListPair
  enableBitcode : Bool
  deriving DecidableEq, Repr

/-- Project-dir validation step of the Apple `from_raw` (the
`raw.project_dir.map(...).unwrap_or_else(...)` expression). -/
def appleProjectDirCheck (app : App) (projectDir? : Option (List Char)) :
    Except AppleError (List Char) :=
  match projectDir? with
  | some projectDir =>
    match underRoot projectDir app.rootDir with
    | none => .error (.projectDirInvalid (.normalizationFailed projectDir))
    | some true => .ok projectDir
    | some false => .error (.projectDirInvalid (.outsideOfAppRoot projectDir app.rootDir))
  | none => .ok APPLE_DEFAULT_PROJECT_DIR

/-- Embedding of `apple::config::Config::from_raw`.  Note that the source
maps a macOS version parse failure through `Error::IosVersionInvalid` as
well (line 396 of `apple/config/mod.rs`). -/
def AppleConfig.fromRaw (app : App) (raw? : Option AppleRaw) :
    Except AppleError AppleConfig :=
  match raw? with
  | none => .error .developmentTeamMissing
  | some raw =>
    if raw.developmentTeam = [] then .error .developmentTeamEmpty
    else
      match appleProjectDirCheck app raw.projectDir with
      | .error e => .error e
      | .ok projectDir =>
        match VersionInfo.fromRaw raw.bundleVersion raw.bundleVersionShort with
        | .error e => .error e
        | .ok info =>
          let bundleVersion := info.versionNumber.getD DEFAULT_BUNDLE_VERSION
          let bundleVersionShort := info.shortVersionNumber.getD bundleVersion.triple
          match raw.iosVersion with
          | some s =>
            match VersionDouble.fromStr s with
            | .error e => .error (.iosVersionInvalid e)
            | .ok iosVersion =>
              match raw.macosVersion with
              | some t =>
                match VersionDouble.fromStr t with
                | .error e => .error (.iosVersionInvalid e)
                | .ok macosVersion =>
                  .ok ⟨app, raw.developmentTeam, projectDir, bundleVersion,
                    bundleVersionShort, iosVersion, macosVersion,
                    raw.useLegacyBuildSystem.getD true, raw.plistPairs.getD [],
                    raw.enableBitcode.getD false⟩
              | none =>
                .ok ⟨app, raw.developmentTeam, projectDir, bundleVersion,
                  bundleVersionShort, iosVersion, DEFAULT_MACOS_VERSION,
                  raw.useLegacyBuildSystem.getD true, raw.plistPairs.getD [],
                  raw.enableBitcode.getD false⟩
          | none =>
            match raw.macosVersion with
            | some t =>
              match VersionDouble.fromStr t with
              | .error e => .error (.iosVersionInvalid e)
              | .ok macosVersion =>
                .ok ⟨app, raw.developmentTeam, projectDir, bundleVersion,
                  bundleVersionShort, DEFAULT_IOS_VERSION, macosVersion,
                  raw.useLegacyBuildSystem.getD true, raw.plistPairs.getD [],
                  raw.enableBitcode.getD false⟩
            | none =>
              .ok ⟨app, raw.developmentTeam, projectDir, bundleVersion,
                bundleVersionShort, DEFAULT_IOS_VERSION, DEFAULT_MACOS_VERSION,
                raw.useLegacyBuildSystem.getD true, raw.plistPairs.getD [],
                raw.enableBitcode.getD false⟩

/-! ### Config discovery and load-or-generate
(`src/config/raw.rs`, `src/config/mod.rs`) -/

/-- Abstract filesystem for config discovery: the set of absolute paths
(component lists) that exist.  Directory names are opaque here, so plain
`String` components suffice. -/
structure FS where
  files : List (List String)
  deriving DecidableEq, Repr

/-- Existence test (`Path::exists`). -/
def FS.pathExists (fs : FS) (p : List String) : Bool := fs.files.contains p

/-- Embedding of `config::Origin`. -/
inductive Origin
  | freshlyMinted
  | loaded
  deriving DecidableEq, Repr

/-- Embedding of `config::LoadOrGenError` over abstract error types:
`loadFailed` covers `LoadError`, `fromRawFailed` keeps the offending root
path as in the source, `genPromptFailed` covers the
`PromptFailed`/`DetectFailed` cases of `GenError`, and `genFromRawFailed`
its `FromRawFailed` case. -/
inductive LoadOrGenError (PErr VErr GErr : Type)
  | loadFailed (e : PErr)
  | fromRawFailed (root : List String) (e : VErr)
  | genPromptFailed (e : GErr)
  | genFromRawFailed (e : VErr)
  deriving DecidableEq, Repr

/-- Embedding of `Raw::discover_root`: starting from the (canonicalized)
working directory, walk up the ancestor chain looking for the config file;
return the nearest directory containing it, or `none` when even the
filesystem root lacks it. -/
def discoverRoot (fs : FS) (fileName : String) (cwd : List String) :
    Option (List String) :=
  if fs.pathExists (cwd ++ [fileName]) then some cwd
  else
    match _h : cwd with
    | [] => none
    | _ :: _ => discoverRoot fs fileName cwd.dropLast
  termination_by cwd.length
  decreasing_by rw [_h]; simp [List.length_dropLast]

/-- Embedding of `Config::load_or_gen`, abstracted over the TOML parse at a
discovered root (`Raw::load`'s read-and-parse step), config validation
(`Config::from_raw`), and raw-config generation (`Raw::prompt` /
`Raw::detect`).  The working directory is assumed canonical (the source
canonicalizes it first), and `Raw::write` is modelled as the returned
filesystem gaining the config file at the generation root. -/
def loadOrGen {RawT CfgT PErr VErr GErr : Type}
    (fs : FS) (fileName : String) (cwd : List String)
    (parse : List String → Except PErr RawT)
    (fromRaw : List String → RawT → Except VErr CfgT)
    (genRaw : Except GErr RawT) :
    Except (LoadOrGenError PErr VErr GErr) ((CfgT × Origin) × FS) :=
  match discoverRoot fs fileName cwd with
  | some rootDir =>
    match parse rootDir with
    | .error e => .error (.loadFailed e)
    | .ok raw =>
      match fromRaw rootDir raw with
      | .error e => .error (.fromRawFailed rootDir e)
      | .ok cfg => .ok ((cfg, .loaded), fs)
  | none =>
    match genRaw with
    | .error e => .error (.genPromptFailed e)
    | .ok raw =>
      match fromRaw cwd raw with
      | .error e => .error (.genFromRawFailed e)
      | .ok cfg => .ok ((cfg, .freshlyMinted), ⟨(cwd ++ [fileName]) :: fs.files⟩)

/-! ### Path prefix utilities (`src/util/path.rs`) -/

/-- Component of a Rust `Path`: the root marker or a normal name.  (Windows
prefixes and `.`/`..` components play no role in the two functions below
and are not distinguished from normal names by them.) -/
inductive PathComponent
  | rootDir
  | normal (name : List Char)
  deriving DecidableEq, Repr

/-- Rust `Path`, as its component list. -/
abbrev RustPath := List PathComponent

/-- Whether a path is absolute (its components begin with the root). -/
def isAbsolutePath (p : RustPath) : Bool := p.head? = some .rootDir

/-- Embedding of `util::prefix_path` (`root.join(path)`): `Path::join`
replaces the receiver entirely when the argument is absolute, and appends
components otherwise. -/
def prefix_path (root p : RustPath) : RustPath :=
  if isAbsolutePath p then p else root ++ p

/-- Embedding of `util::PathNotPrefixed` (the `prefix` field is named
`prefixPath` here). -/
structure PathNotPrefixed where
  path : RustPath
  prefixPath : RustPath
  deriving DecidableEq, Repr

/-- Embedding of `util::unprefix_path` (`path.strip_prefix(root)`):
`strip_prefix` succeeds exactly when `root`'s components are a prefix of
`path`'s, yielding the remaining components. -/
def unprefix_path (root p : RustPath) : Except PathNotPrefixed RustPath :=
  if root.isPrefixOf p then .ok (p.drop root.length) else .error ⟨p, root⟩

theorem splitOnChar_ne_nil (sep : Char) (l : List Char) : splitOnChar sep l ≠ [] := by
  induction l with
  | nil => simp [splitOnChar]
  | cons c cs ih =>
    simp only [splitOnChar]
    split
    · simp
    · cases hs : splitOnChar sep cs <;> simp

theorem splitOnChar_of_not_mem (sep : Char) (l : List Char) (h : sep ∉ l) :
    splitOnChar sep l = [l] := by
  induction l with
  | nil => rfl
  | cons c cs ih =>
    simp only [List.mem_cons, not_or] at h
    simp only [splitOnChar]
    rw [if_neg (fun hc => h.1 hc.symm), ih h.2]

theorem splitOnChar_append (sep : Char) (l1 l2 : List Char) (h : sep ∉ l1) :
    splitOnChar sep (l1 ++ sep :: l2) = l1 :: splitOnChar sep l2 := by
  induction l1 with
  | nil => simp [splitOnChar]
  | cons c cs ih =>
    simp only [List.mem_cons, not_or] at h
    have hrec := ih h.2
    rw [List.cons_append, splitOnChar]
    rw [if_neg (fun hc => h.1 hc.symm), hrec]

theorem digitChar_bounds {d : Nat} (h : d < 10) :
    '0' ≤ digitChar d ∧ digitChar d ≤ '9' := by
  interval_cases d <;> decide

theorem digitVal_digitChar {d : Nat} (h : d < 10) :
    digitVal (digitChar d) = some d := by
  interval_cases d <;> decide

theorem natToChars_ne_nil (n : Nat) : natToChars n ≠ [] := by
  rw [natToChars]
  split <;> simp

theorem natToChars_digits (n : Nat) : ∀ c ∈ natToChars n, '0' ≤ c ∧ c ≤ '9' := by
  induction n using Nat.strong_induction_on with
  | _ n ih =>
    rw [natToChars]
    split
    · intro c hc
      simp only [List.mem_singleton] at hc
      subst hc
      exact digitChar_bounds (by omega)
    · intro c hc
      rw [List.mem_append] at hc
      rcases hc with hc | hc
      · exact ih (n / 10) (Nat.div_lt_self (by omega) (by omega)) c hc
      · simp only [List.mem_singleton] at hc
        subst hc
        exact digitChar_bounds (Nat.mod_lt _ (by omega))

theorem digit_ne_dot {c : Char} (h : '0' ≤ c ∧ c ≤ '9') : c ≠ '.' := by
  intro he; subst he; exact absurd h (by decide)

theorem digit_ne_plus {c : Char} (h : '0' ≤ c ∧ c ≤ '9') : c ≠ '+' := by
  intro he; subst he; exact absurd h (by decide)

theorem dot_not_mem_natToChars (n : Nat) : '.' ∉ natToChars n := by
  intro h
  exact digit_ne_dot (natToChars_digits n '.' h) rfl

theorem parseDigitsAux_append (acc : Nat) (l1 l2 : List Char) :
    parseDigitsAux acc (l1 ++ l2) =
      match parseDigitsAux acc l1 with
      | some a => parseDigitsAux a l2
      | none => none := by
  induction l1 generalizing acc with
  | nil => rfl
  | cons c cs ih =>
    simp only [List.cons_append, parseDigitsAux]
    cases digitVal c with
    | some d => exact ih (10 * acc + d)
    | none => rfl

theorem parseDigitsAux_natToChars (n : Nat) :
    ∀ acc, parseDigitsAux acc (natToChars n) =
      some (acc * 10 ^ (natToChars n).length + n) := by
  induction n using Nat.strong_induction_on with
  | _ n ih =>
    intro acc
    rw [natToChars]
    split
    · next h =>
      simp only [parseDigitsAux, digitVal_digitChar h, List.length_singleton]
      congr 1
      omega
    · next h =>
      rw [parseDigitsAux_append]
      rw [ih (n / 10) (Nat.div_lt_self (by omega) (by omega)) acc]
      simp only [parseDigitsAux, digitVal_digitChar (Nat.mod_lt n (by omega)),
        List.length_append, List.length_singleton]
      congr 1
      rw [pow_succ, ← Nat.mul_assoc]
      omega

theorem parseU32_natToChars {n : Nat} (h : n < u32Size) :
    parseU32 (natToChars n) = some n := by
  have hne := natToChars_ne_nil n
  have hdig := natToChars_digits n
  unfold parseU32
  have hhead : (natToChars n).head? ≠ some '+' := by
    cases hc : natToChars n with
    | nil => exact absurd hc hne
    | cons c cs =>
      simp only [List.head?, Option.some_injective]
      intro he
      have := hdig c (hc ▸ List.mem_cons_self c cs)
      exact digit_ne_plus this (by injection he)
  rw [if_neg hhead]
  rw [if_neg hne]
  rw [parseDigitsAux_natToChars n 0]
  simp only [Nat.zero_mul, Nat.zero_add]
  rw [if_pos h]

theorem normalizeAbsAux_append (acc l1 l2 : List (List Char)) :
    normalizeAbsAux acc (l1 ++ l2) =
      match normalizeAbsAux acc l1 with
      | some a => normalizeAbsAux a l2
      | none => none := by
  induction l1 generalizing acc with
  | nil => rfl
  | cons c cs ih =>
    simp only [List.cons_append, normalizeAbsAux]
    split
    · exact ih acc
    · split
      · cases acc with
        | nil => rfl
        | cons a as => exact ih _
      · exact ih _

theorem normalizeAbsAux_all_normal (acc : List (List Char)) (l : List (List Char))
    (h : ∀ comp ∈ l, comp ≠ [] ∧ comp ≠ ['.'] ∧ comp ≠ ['.', '.']) :
    normalizeAbsAux acc l = some (acc ++ l) := by
  induction l generalizing acc with
  | nil => simp [normalizeAbsAux]
  | cons c cs ih =>
    have hc := h c (List.mem_cons_self c cs)
    simp only [normalizeAbsAux]
    rw [if_neg (by simp [hc.1, hc.2.1]), if_neg hc.2.2]
    rw [ih (acc ++ [c]) (fun comp hm => h comp (List.mem_cons_of_mem c hm))]
    simp

theorem underRoot_relative_normal (dir : List Char) (root : List (List Char))
    (habs : isAbsStr dir = false)
    (hcomps : ∀ comp ∈ strComponents dir, comp ≠ [] ∧ comp ≠ ['.'] ∧ comp ≠ ['.', '.'])
    (hroot : normalizeAbs root = some root) :
    underRoot dir root = some true := by
  unfold underRoot
  rw [habs]
  simp only [Bool.false_eq_true, if_false]
  unfold normalizeAbs at hroot ⊢
  rw [normalizeAbsAux_append, hroot]
  show Option.map (fun norm => root.isPrefixOf norm)
    (normalizeAbsAux root (strComponents dir)) = some true
  rw [normalizeAbsAux_all_normal root _ hcomps]
  show some (root.isPrefixOf (root ++ strComponents dir)) = some true
  exact congrArg some (List.isPrefixOf_iff_prefix.2 (List.prefix_append root _))

theorem appleProjectDirCheck_ok (app : App) (pd? : Option (List Char)) (pd : List Char)
    (h : appleProjectDirCheck app pd? = .ok pd) :
    underRoot pd app.rootDir = some true ∨ pd = APPLE_DEFAULT_PROJECT_DIR := by
  cases pd? with
  | none =>
    right
    have he : appleProjectDirCheck app none = .ok APPLE_DEFAULT_PROJECT_DIR := rfl
    rw [he] at h
    injection h with h'
    exact h'.symm
  | some d =>
    left
    unfold appleProjectDirCheck at h
    cases hur : underRoot d app.rootDir with
    | none => simp only [hur] at h; exact Except.noConfusion h
    | some b =>
      cases b with
      | false => simp only [hur] at h; exact Except.noConfusion h
      | true =>
        simp only [hur] at h
        injection h with h'
        subst h'
        exact hur

/-- C9: with an absent raw Android section, `android::config::Config::from_raw`
never fails and yields `min_sdk_version = 24`, `vulkan_validation = true`,
and `project_dir = "gen/android"`. -/
theorem android_fromRaw_none_defaults (app : App) :
    AndroidConfig.fromRaw app none = .ok ⟨app, 24, true, "gen/android".toList⟩ := rfl

/-- C8: the Apple `Config::from_raw` rejects an absent raw section with
`DevelopmentTeamMissing`, rejects an empty development-team string with
`DevelopmentTeamEmpty`, and consequently no successfully constructed Apple
config has an empty development team. -/
theorem apple_fromRaw_development_team (app : App) :
    AppleConfig.fromRaw app none = .error .developmentTeamMissing ∧
    (∀ raw : AppleRaw, raw.developmentTeam = [] →
      AppleConfig.fromRaw app (some raw) = .error .developmentTeamEmpty) ∧
    (∀ (raw? : Option AppleRaw) (cfg : AppleConfig),
      AppleConfig.fromRaw app raw? = .ok cfg → cfg.developmentTeam ≠ []) := by
  refine ⟨rfl, ?_, ?_⟩
  · intro raw h
    simp [AppleConfig.fromRaw, h]
  · intro raw? cfg h hdt
    cases raw? with
    | none => simp [AppleConfig.fromRaw] at h
    | some raw =>
      simp only [AppleConfig.fromRaw] at h
      by_cases hteam : raw.developmentTeam = []
      · rw [if_pos hteam] at h; cases h
      · rw [if_neg hteam] at h
        repeat' split at h
        all_goals first
          | exact Except.noConfusion h
          | (injection h with h'; subst h'; exact hteam hdt)

/-- C8 witness: a concrete empty development team is rejected with
`DevelopmentTeamEmpty`. -/
theorem apple_fromRaw_development_team_witness :
    AppleConfig.fromRaw ⟨[['r']]⟩ (some { developmentTeam := [] }) =
      .error .developmentTeamEmpty :=
  (apple_fromRaw_development_team ⟨[['r']]⟩).2.1 { developmentTeam := [] } rfl

/-- C10: unprefixing after prefixing returns the original relative path,
and any path not starting with the root is rejected with the
`PathNotPrefixed` error carrying that path and the root. -/
theorem unprefix_path_of_prefix_path (root : RustPath) :
    (∀ p : RustPath, isAbsolutePath p = false →
      unprefix_path root (prefix_path root p) = .ok p) ∧
    (∀ q : RustPath, ¬ root <+: q → unprefix_path root q = .error ⟨q, root⟩) := by
  constructor
  · intro p hp
    unfold prefix_path
    rw [hp]
    simp only [Bool.false_eq_true, if_false]
    unfold unprefix_path
    rw [if_pos (List.isPrefixOf_iff_prefix.2 (List.prefix_append root p))]
    rw [List.drop_left]
  · intro q hq
    unfold unprefix_path
    rw [if_neg (fun hc => hq (List.isPrefixOf_iff_prefix.1 hc))]

/-- C10 witness: concrete round trip under root `/a`, and a concrete
non-prefixed path rejected. -/
theorem unprefix_path_of_prefix_path_witness :
    unprefix_path [PathComponent.rootDir, PathComponent.normal ['a']]
        (prefix_path [PathComponent.rootDir, PathComponent.normal ['a']]
          [PathComponent.normal ['b']]) =
      .ok [PathComponent.normal ['b']] ∧
    unprefix_path [PathComponent.rootDir, PathComponent.normal ['a']]
        [PathComponent.rootDir, PathComponent.normal ['c']] =
      .error ⟨[PathComponent.rootDir, PathComponent.normal ['c']],
        [PathComponent.rootDir, PathComponent.normal ['a']]⟩ :=
  ⟨(unprefix_path_of_prefix_path _).1 _ (by decide),
   (unprefix_path_of_prefix_path _).2 _ (by decide)⟩

/-- C4: when the supplied Android project dir normalizes to a path under
the app root, `from_raw` fails with `ContainsSpaces` exactly when the
string contains a space; the Apple `from_raw` performs no space check and
accepts the same directory string. -/
theorem android_spaces_check (app : App) (raw : AndroidRaw) (d : List Char)
    (hd : raw.projectDir = some d) (hur : underRoot d app.rootDir = some true) :
    (AndroidConfig.fromRaw app (some raw) =
        .error (.projectDirInvalid (.containsSpaces d)) ↔ ' ' ∈ d) ∧
    (∀ team : List Char, team ≠ [] →
      ∃ cfg : AppleConfig,
        AppleConfig.fromRaw app (some { developmentTeam := team, projectDir := some d }) =
          .ok cfg ∧ cfg.projectDir = d) := by
  constructor
  · by_cases hsp : ' ' ∈ d
    · have hc : d.contains ' ' = true := by simpa using hsp
      simp [AndroidConfig.fromRaw, hd, hur, hc, hsp]
    · have hc : d.contains ' ' = false := by simpa using hsp
      simp [AndroidConfig.fromRaw, hd, hur, hc, hsp]
  · intro team hteam
    refine ⟨⟨app, team, d, DEFAULT_BUNDLE_VERSION, ⟨1, 0, 0⟩, DEFAULT_IOS_VERSION,
      DEFAULT_MACOS_VERSION, true, [], false⟩, ?_, rfl⟩
    simp only [AppleConfig.fromRaw, appleProjectDirCheck, if_neg hteam, hur]
    rfl

/-- C4 witness: a concrete project dir with a space is rejected on Android
and accepted on Apple. -/
theorem android_spaces_check_witness :
    AndroidConfig.fromRaw ⟨[['r']]⟩ (some { projectDir := some "my dir".toList }) =
      .error (.projectDirInvalid (.containsSpaces "my dir".toList)) ∧
    ∃ cfg : AppleConfig,
      AppleConfig.fromRaw ⟨[['r']]⟩
          (some { developmentTeam := ['T'], projectDir := some "my dir".toList }) =
        .ok cfg ∧ cfg.projectDir = "my dir".toList := by
  have h := android_spaces_check ⟨[['r']]⟩ { projectDir := some "my dir".toList }
    "my dir".toList rfl rfl
  exact ⟨h.1.mpr (by decide), h.2 ['T'] (by decide)⟩

/-- C1 counterexample: an Apple raw section with an empty development team
and a project dir outside the app root is rejected with
`DevelopmentTeamEmpty`, not with `ProjectDirInvalid::OutsideOfAppRoot` as
the claim literally requires. -/
theorem apple_outside_root_counterexample :
    underRoot "..".toList [['r']] = some false ∧
    AppleConfig.fromRaw ⟨[['r']]⟩
        (some { developmentTeam := [], projectDir := some "..".toList }) =
      .error .developmentTeamEmpty ∧
    (AppleError.developmentTeamEmpty ≠
      AppleError.projectDirInvalid (.outsideOfAppRoot "..".toList [['r']])) := by
  exact ⟨rfl, rfl, by decide⟩

/-- C1 (amended): a supplied project dir whose normalized join falls
outside the app root is rejected with `OutsideOfAppRoot` — on Android
unconditionally, on Apple provided the development team is present and
non-empty (the development-team checks run first); and every successfully
constructed config (Android or Apple) stores a project dir that is under
the app root, the root being canonical. -/
theorem project_dir_containment (app : App) :
    (∀ (raw : AndroidRaw) (d : List Char), raw.projectDir = some d →
      underRoot d app.rootDir = some false →
      AndroidConfig.fromRaw app (some raw) =
        .error (.projectDirInvalid (.outsideOfAppRoot d app.rootDir))) ∧
    (∀ (raw : AppleRaw) (d : List Char), raw.developmentTeam ≠ [] →
      raw.projectDir = some d → underRoot d app.rootDir = some false →
      AppleConfig.fromRaw app (some raw) =
        .error (.projectDirInvalid (.outsideOfAppRoot d app.rootDir))) ∧
    (normalizeAbs app.rootDir = some app.rootDir →
      (∀ (raw? : Option AndroidRaw) (cfg : AndroidConfig),
        AndroidConfig.fromRaw app raw? = .ok cfg →
        underRoot cfg.projectDir app.rootDir = some true) ∧
      (∀ (raw? : Option AppleRaw) (cfg : AppleConfig),
        AppleConfig.fromRaw app raw? = .ok cfg →
        underRoot cfg.projectDir app.rootDir = some true)) := by
  refine ⟨?_, ?_, ?_⟩
  · intro raw d hd hur
    simp [AndroidConfig.fromRaw, hd, hur]
  · intro raw d hteam hd hur
    simp [AppleConfig.fromRaw, appleProjectDirCheck, if_neg hteam, hd, hur]
  · intro hroot
    have hdefA : underRoot ANDROID_DEFAULT_PROJECT_DIR app.rootDir = some true :=
      underRoot_relative_normal ANDROID_DEFAULT_PROJECT_DIR app.rootDir
        (by decide) (by decide) hroot
    have hdefP : underRoot APPLE_DEFAULT_PROJECT_DIR app.rootDir = some true :=
      underRoot_relative_normal APPLE_DEFAULT_PROJECT_DIR app.rootDir
        (by decide) (by decide) hroot
    constructor
    · intro raw? cfg h
      cases raw? with
      | none =>
        injection h with h'
        subst h'
        exact hdefA
      | some raw =>
        simp only [AndroidConfig.fromRaw, Option.getD_some] at h
        cases hd : raw.projectDir with
        | none =>
          simp only [hd] at h
          injection h with h'
          subst h'
          exact hdefA
        | some d =>
          simp only [hd] at h
          cases hur : underRoot d app.rootDir with
          | none => simp only [hur] at h; exact Except.noConfusion h
          | some b =>
            cases b with
            | false => simp only [hur] at h; exact Except.noConfusion h
            | true =>
              simp only [hur] at h
              by_cases hsp : d.contains ' ' = true
              · simp only [hsp, Bool.not_true, Bool.false_eq_true, if_false] at h
                exact Except.noConfusion h
              · rw [Bool.not_eq_true] at hsp
                simp only [hsp, Bool.not_false, if_true] at h
                injection h with h'
                subst h'
                exact hur
    · intro raw? cfg h
      cases raw? with
      | none => exact Except.noConfusion h
      | some raw =>
        simp only [AppleConfig.fromRaw] at h
        by_cases hteam : raw.developmentTeam = []
        · rw [if_pos hteam] at h; exact Except.noConfusion h
        · rw [if_neg hteam] at h
          cases hpd : appleProjectDirCheck app raw.projectDir with
          | error e => simp only [hpd] at h; exact Except.noConfusion h
          | ok pd =>
            simp only [hpd] at h
            have hpdu : underRoot pd app.rootDir = some true := by
              rcases appleProjectDirCheck_ok app raw.projectDir pd hpd with hu | hdef
              · exact hu
              · rw [hdef]; exact hdefP
            repeat' split at h
            all_goals first
              | exact Except.noConfusion h
              | (injection h with h'; subst h'; exact hpdu)

/-- C1 witness: a concrete out-of-root Android project dir is rejected, and
the default project dir of a freshly built config is under a concrete
root. -/
theorem project_dir_containment_witness :
    AndroidConfig.fromRaw ⟨[['r']]⟩ (some { projectDir := some "../x".toList }) =
      .error (.projectDirInvalid (.outsideOfAppRoot "../x".toList [['r']])) ∧
    underRoot (AndroidConfig.projectDir ⟨⟨[['r']]⟩, 24, true, "gen/android".toList⟩)
      [['r']] = some true := by
  have h := project_dir_containment ⟨[['r']]⟩
  exact ⟨h.1 { projectDir := some "../x".toList } "../x".toList rfl rfl,
    (h.2.2 rfl).1 none ⟨⟨[['r']]⟩, 24, true, "gen/android".toList⟩ rfl⟩

theorem parseU32_nil : parseU32 [] = none := rfl

theorem splitOnChar_display_extras (l0 : List Char) (h0 : '.' ∉ l0) (ns : List Nat) :
    splitOnChar '.' (l0 ++ displayExtras ns) = l0 :: ns.map natToChars := by
  induction ns generalizing l0 with
  | nil =>
    simpa [displayExtras] using splitOnChar_of_not_mem '.' l0 h0
  | cons n ns ih =>
    show splitOnChar '.' (l0 ++ ('.' :: (natToChars n ++ displayExtras ns))) = _
    rw [splitOnChar_append '.' l0 _ h0, ih (natToChars n) (dot_not_mem_natToChars n)]
    rfl

theorem splitOnChar_triple_display (t : VersionTriple) :
    splitOnChar '.' t.display =
      [natToChars t.major, natToChars t.minor, natToChars t.patch] := by
  unfold VersionTriple.display
  rw [splitOnChar_append '.' _ _ (dot_not_mem_natToChars _),
    splitOnChar_append '.' _ _ (dot_not_mem_natToChars _),
    splitOnChar_of_not_mem '.' _ (dot_not_mem_natToChars _)]

theorem vn_display_some (t : VersionTriple) (ex : List Nat) :
    VersionNumber.display ⟨t, some ex⟩ =
      natToChars t.major ++
        ('.' :: (natToChars t.minor ++ ('.' :: (natToChars t.patch ++ displayExtras ex)))) := by
  show t.display ++ displayExtras ex = _
  unfold VersionTriple.display
  simp [List.append_assoc]

theorem splitOnChar_vn_display (t : VersionTriple) (ex : List Nat) :
    splitOnChar '.' (VersionNumber.display ⟨t, some ex⟩) =
      natToChars t.major :: natToChars t.minor :: natToChars t.patch ::
        ex.map natToChars := by
  rw [vn_display_some, splitOnChar_append '.' _ _ (dot_not_mem_natToChars _),
    splitOnChar_append '.' _ _ (dot_not_mem_natToChars _),
    splitOnChar_display_extras _ (dot_not_mem_natToChars _) ex]

theorem parseExtras_map_natToChars (w : List Char) (ns : List Nat)
    (h : ∀ n ∈ ns, n < u32Size) :
    parseExtras w (ns.map natToChars) = .ok ns := by
  induction ns with
  | nil => rfl
  | cons n ns ih =>
    simp only [List.map_cons, parseExtras]
    rw [parseU32_natToChars (h n (List.mem_cons_self n ns))]
    rw [ih (fun m hm => h m (List.mem_cons_of_mem n hm))]

theorem fromSplit_natToChars (a b c : Nat) (w : List Char)
    (ha : a < u32Size) (hb : b < u32Size) (hc : c < u32Size) :
    VersionTriple.fromSplit (natToChars a) (natToChars b) (natToChars c) w =
      .ok ⟨a, b, c⟩ := by
  unfold VersionTriple.fromSplit
  rw [parseU32_natToChars ha, parseU32_natToChars hb, parseU32_natToChars hc]

/-- C3: `VersionTriple::from_str` accepts one to three dot-separated
components when each present component parses as `u32` (omitted minor and
patch defaulting to zero), reports the first failing component as
`MajorInvalid`/`MinorInvalid`/`PatchInvalid`, and rejects four or more
components with `VersionStringInvalid`. -/
theorem versionTriple_fromStr_spec (v : List Char) (parts : List (List Char))
    (hp : splitOnChar '.' v = parts) :
    (4 ≤ parts.length → VersionTriple.fromStr v = .error (.versionStringInvalid v)) ∧
    (parts.length ≤ 3 → (∀ p ∈ parts, (parseU32 p).isSome = true) →
      VersionTriple.fromStr v =
        .ok ⟨(parseU32 (parts.getD 0 [])).getD 0, (parseU32 (parts.getD 1 [])).getD 0,
          (parseU32 (parts.getD 2 [])).getD 0⟩) ∧
    (VersionTriple.fromStr v = .error (.majorInvalid v) ↔
      parts.length ≤ 3 ∧ parseU32 (parts.getD 0 []) = none) ∧
    (VersionTriple.fromStr v = .error (.minorInvalid v) ↔
      (parts.length = 2 ∨ parts.length = 3) ∧ (parseU32 (parts.getD 0 [])).isSome = true ∧
      parseU32 (parts.getD 1 []) = none) ∧
    (VersionTriple.fromStr v = .error (.patchInvalid v) ↔
      parts.length = 3 ∧ (parseU32 (parts.getD 0 [])).isSome = true ∧
      (parseU32 (parts.getD 1 [])).isSome = true ∧ parseU32 (parts.getD 2 []) = none) := by
  rcases parts with _ | ⟨a, _ | ⟨b, _ | ⟨c, rest⟩⟩⟩
  · exact absurd hp (splitOnChar_ne_nil '.' v)
  · cases hpa : parseU32 a with
    | none => simp [VersionTriple.fromStr, hp, hpa]
    | some x => simp [VersionTriple.fromStr, hp, hpa, parseU32_nil]
  · cases hpa : parseU32 a with
    | none => simp [VersionTriple.fromStr, hp, hpa]
    | some x =>
      cases hpb : parseU32 b with
      | none => simp [VersionTriple.fromStr, hp, hpa, hpb]
      | some y => simp [VersionTriple.fromStr, hp, hpa, hpb, parseU32_nil]
  · rcases rest with _ | ⟨e, es⟩
    · cases hpa : parseU32 a with
      | none => simp [VersionTriple.fromStr, VersionTriple.fromSplit, hp, hpa]
      | some x =>
        cases hpb : parseU32 b with
        | none => simp [VersionTriple.fromStr, VersionTriple.fromSplit, hp, hpa, hpb]
        | some y =>
          cases hpc : parseU32 c with
          | none => simp [VersionTriple.fromStr, VersionTriple.fromSplit, hp, hpa, hpb, hpc]
          | some z => simp [VersionTriple.fromStr, VersionTriple.fromSplit, hp, hpa, hpb, hpc]
    · refine ⟨fun _ => by simp [VersionTriple.fromStr, hp], ?_, ?_, ?_, ?_⟩
      · intro hlen _
        exfalso
        simp only [List.length_cons] at hlen
        omega
      · constructor
        · intro h
          simp [VersionTriple.fromStr, hp] at h
        · rintro ⟨hlen, -⟩
          exfalso
          simp only [List.length_cons] at hlen
          omega
      · constructor
        · intro h
          simp [VersionTriple.fromStr, hp] at h
        · rintro ⟨hlen, -, -⟩
          exfalso
          rcases hlen with h2 | h3
          · simp only [List.length_cons] at h2; omega
          · simp only [List.length_cons] at h3; omega
      · constructor
        · intro h
          simp [VersionTriple.fromStr, hp] at h
        · rintro ⟨hlen, -, -, -⟩
          exfalso
          simp only [List.length_cons] at hlen
          omega

/-- C3 witness: concrete behaviours at one, two, and four components. -/
theorem versionTriple_fromStr_spec_witness :
    VersionTriple.fromStr "1.2".toList = .ok ⟨1, 2, 0⟩ ∧
    VersionTriple.fromStr "1.2.3.4".toList =
      .error (.versionStringInvalid "1.2.3.4".toList) := by
  constructor
  · exact (versionTriple_fromStr_spec "1.2".toList ["1".toList, "2".toList] rfl).2.1
      (by decide) (by decide)
  · exact (versionTriple_fromStr_spec "1.2.3.4".toList
      ["1".toList, "2".toList, "3".toList, "4".toList] rfl).1 (by decide)

/-- C5: given optional version strings that individually parse,
`VersionInfo::from_raw` fails with `InvalidVersionConfiguration` exactly
when only the short version is supplied, fails with
`IosVersionNumberMismatch` exactly when both are supplied with differing
leading triples, and otherwise succeeds carrying exactly the parsed
values. -/
theorem versionInfo_fromRaw_spec
    (vs svs : Option (List Char)) (vn : Option VersionNumber) (svn : Option VersionTriple)
    (hv : parseOptVersionNumber vs = .ok vn)
    (hs : parseOptVersionTriple svs = .ok svn) :
    (VersionInfo.fromRaw vs svs = .error .invalidVersionConfiguration ↔
      svn.isSome = true ∧ vn = none) ∧
    (VersionInfo.fromRaw vs svs = .error .iosVersionNumberMismatch ↔
      ∃ n t, vn = some n ∧ svn = some t ∧ n.triple ≠ t) ∧
    ((svn.isSome = true → vn.isSome = true) →
      (∀ n t, vn = some n → svn = some t → n.triple = t) →
      VersionInfo.fromRaw vs svs = .ok ⟨vn, svn⟩) := by
  cases vn with
  | none =>
    cases svn with
    | none => simp [VersionInfo.fromRaw, hv, hs]
    | some t => simp [VersionInfo.fromRaw, hv, hs]
  | some n =>
    cases svn with
    | none => simp [VersionInfo.fromRaw, hv, hs]
    | some t =>
      by_cases ht : n.triple = t
      · simp [VersionInfo.fromRaw, hv, hs, ht]
      · simp [VersionInfo.fromRaw, hv, hs, ht]

/-- C5 witness: a concrete long/short pair with differing triples is
rejected as a mismatch. -/
theorem versionInfo_fromRaw_spec_witness :
    VersionInfo.fromRaw (some "1.2.3.9".toList) (some "1.2.4".toList) =
      .error .iosVersionNumberMismatch :=
  (versionInfo_fromRaw_spec (some "1.2.3.9".toList) (some "1.2.4".toList)
      (some ⟨⟨1, 2, 3⟩, some [9]⟩) (some ⟨1, 2, 4⟩) rfl rfl).2.1.mpr
    ⟨⟨⟨1, 2, 3⟩, some [9]⟩, ⟨1, 2, 4⟩, rfl, rfl, by decide⟩

/-- C6: parsing the display form of a `VersionNumber` whose `extra` is
`None` or a non-empty `Some` round-trips to the same value; when `extra`
is `Some` of an empty list the display form has only three components and
parses back with `extra = None`. -/
theorem versionNumber_display_roundTrip (v : VersionNumber)
    (hmaj : v.triple.major < u32Size) (hmin : v.triple.minor < u32Size)
    (hpat : v.triple.patch < u32Size)
    (hextra : ∀ l, v.extra = some l → ∀ n ∈ l, n < u32Size) :
    ((v.extra = none ∨ ∃ l, v.extra = some l ∧ l ≠ []) →
      VersionNumber.fromStr v.display = .ok v) ∧
    (v.extra = some [] → VersionNumber.fromStr v.display = .ok ⟨v.triple, none⟩) := by
  obtain ⟨⟨a, b, c⟩, ex⟩ := v
  simp only at hmaj hmin hpat
  cases ex with
  | none =>
    have hdisp : VersionNumber.display ⟨⟨a, b, c⟩, none⟩ =
        VersionTriple.display ⟨a, b, c⟩ := by
      simp [VersionNumber.display]
    have hsplit : splitOnChar '.' (VersionNumber.display ⟨⟨a, b, c⟩, none⟩) =
        [natToChars a, natToChars b, natToChars c] := by
      rw [hdisp, splitOnChar_triple_display]
    constructor
    · intro _
      simp only [VersionNumber.fromStr, hsplit, List.length_cons, List.length_nil]
      rw [if_pos (by omega)]
      simp only [VersionTriple.fromStr, hsplit,
        fromSplit_natToChars a b c _ hmaj hmin hpat]
    · intro hc
      exact absurd hc (by simp)
  | some ex =>
    cases ex with
    | nil =>
      have hsplit : splitOnChar '.' (VersionNumber.display ⟨⟨a, b, c⟩, some []⟩) =
          [natToChars a, natToChars b, natToChars c] := by
        rw [splitOnChar_vn_display]
        rfl
      have hok : VersionNumber.fromStr (VersionNumber.display ⟨⟨a, b, c⟩, some []⟩) =
          .ok ⟨⟨a, b, c⟩, none⟩ := by
        simp only [VersionNumber.fromStr, hsplit, List.length_cons, List.length_nil]
        rw [if_pos (by omega)]
        simp only [VersionTriple.fromStr, hsplit,
          fromSplit_natToChars a b c _ hmaj hmin hpat]
      refine ⟨?_, fun _ => hok⟩
      rintro (h | ⟨l, hl, hne⟩)
      · exact absurd h (by simp)
      · injection hl with hl'
        exact absurd hl'.symm hne
    | cons e es =>
      have hsplit := splitOnChar_vn_display ⟨a, b, c⟩ (e :: es)
      have hbounds : ∀ n ∈ e :: es, n < u32Size := hextra (e :: es) rfl
      constructor
      · intro _
        simp only [VersionNumber.fromStr, hsplit, List.length_cons, List.length_map]
        rw [if_neg (by omega)]
        simp only [List.map_cons]
        rw [fromSplit_natToChars a b c _ hmaj hmin hpat]
        have := parseExtras_map_natToChars
          (VersionNumber.display ⟨⟨a, b, c⟩, some (e :: es)⟩) (e :: es) hbounds
        simp only [List.map_cons] at this
        rw [this]
      · intro hc
        injection hc with hc'
        exact absurd hc' (by simp)

/-- C6 witness: a concrete version number with extra components
round-trips through its display form. -/
theorem versionNumber_display_roundTrip_witness :
    VersionNumber.fromStr (VersionNumber.display ⟨⟨1, 2, 3⟩, some [4, 5]⟩) =
      .ok ⟨⟨1, 2, 3⟩, some [4, 5]⟩ :=
  (versionNumber_display_roundTrip ⟨⟨1, 2, 3⟩, some [4, 5]⟩ (by decide) (by decide)
      (by decide) (by intro l hl; injection hl with hl'; subst hl'; decide)).1
    (Or.inr ⟨[4, 5], rfl, by decide⟩)

theorem discoverRoot_found (fs : FS) (fileName : String) :
    ∀ (cwd : List String) (r : List String), discoverRoot fs fileName cwd = some r →
      (∃ k, k ≤ cwd.length ∧ r = cwd.take k) ∧
      fs.pathExists (r ++ [fileName]) = true ∧
      ∀ k, k ≤ cwd.length → r.length < k →
        fs.pathExists (cwd.take k ++ [fileName]) = false := by
  refine discoverRoot.induct fs fileName
    (fun cwd => ∀ r, discoverRoot fs fileName cwd = some r →
      (∃ k, k ≤ cwd.length ∧ r = cwd.take k) ∧
      fs.pathExists (r ++ [fileName]) = true ∧
      ∀ k, k ≤ cwd.length → r.length < k →
        fs.pathExists (cwd.take k ++ [fileName]) = false) ?_ ?_ ?_
  · intro cwd hex r h
    rw [discoverRoot.eq_def, if_pos hex] at h
    injection h with h'
    subst h'
    refine ⟨⟨cwd.length, le_refl _, (List.take_length cwd).symm⟩, hex, ?_⟩
    intro k hk hlt
    exact absurd hlt (by omega)
  · intro hex r h
    rw [discoverRoot.eq_def, if_neg hex] at h
    exact Option.noConfusion h
  · intro head tail hex ih r h
    rw [discoverRoot.eq_def, if_neg hex] at h
    have h' : discoverRoot fs fileName (head :: tail).dropLast = some r := h
    obtain ⟨⟨k, hk, hrk⟩, hexr, hmin⟩ := ih r h'
    have hlen : (head :: tail).dropLast.length = tail.length := by
      simp [List.length_dropLast]
    rw [hlen] at hk
    refine ⟨⟨k, ?_, ?_⟩, hexr, ?_⟩
    · simp only [List.length_cons]
      omega
    · rw [hrk, List.dropLast_eq_take, List.take_take]
      congr 1
      simp only [List.length_cons]
      omega
    · intro k' hk' hlt
      by_cases hup : k' ≤ tail.length
      · have hres := hmin k' (by rw [hlen]; exact hup) hlt
        rw [List.dropLast_eq_take, List.take_take] at hres
        have hm : min k' ((head :: tail).length - 1) = k' := by
          simp only [List.length_cons]
          omega
        rw [hm] at hres
        exact hres
      · have hk'' : k' = (head :: tail).length := by
          simp only [List.length_cons] at hk' ⊢
          omega
        rw [hk'', List.take_length]
        exact Bool.eq_false_iff.mpr hex

theorem discoverRoot_none (fs : FS) (fileName : String) :
    ∀ cwd : List String, discoverRoot fs fileName cwd = none →
      ∀ k, k ≤ cwd.length → fs.pathExists (cwd.take k ++ [fileName]) = false := by
  refine discoverRoot.induct fs fileName
    (fun cwd => discoverRoot fs fileName cwd = none →
      ∀ k, k ≤ cwd.length → fs.pathExists (cwd.take k ++ [fileName]) = false) ?_ ?_ ?_
  · intro cwd hex h
    rw [discoverRoot.eq_def, if_pos hex] at h
    exact Option.noConfusion h
  · intro hex _ k hk
    have hk0 : k = 0 := by simpa using hk
    subst hk0
    simpa using Bool.eq_false_iff.mpr hex
  · intro head tail hex ih h k hk
    rw [discoverRoot.eq_def, if_neg hex] at h
    have h' : discoverRoot fs fileName (head :: tail).dropLast = none := h
    by_cases hup : k ≤ tail.length
    · have hres := ih h' k (by simp only [List.length_dropLast, List.length_cons]; omega)
      rw [List.dropLast_eq_take, List.take_take] at hres
      have hm : min k ((head :: tail).length - 1) = k := by
        simp only [List.length_cons]
        omega
      rw [hm] at hres
      exact hres
    · have hk'' : k = (head :: tail).length := by
        simp only [List.length_cons] at hk ⊢
        omega
      rw [hk'', List.take_length]
      exact Bool.eq_false_iff.mpr hex

/-- C7: `Config::load_or_gen` yields `Origin::Loaded` exactly when the
config file exists in the working directory or one of its ancestors; the
discovered root is the nearest such ancestor, whose file is then parsed
and validated; and when no ancestor has the file, a successfully generated
and validated fresh config is written to disk (the config file appears
under the working directory) and `Origin::FreshlyMinted` is returned. -/
theorem load_or_gen_spec {RawT CfgT PErr VErr GErr : Type}
    (fs : FS) (fileName : String) (cwd : List String)
    (parse : List String → Except PErr RawT)
    (fromRaw : List String → RawT → Except VErr CfgT)
    (genRaw : Except GErr RawT) :
    (∀ (cfg : CfgT) (o : Origin) (fs' : FS),
      loadOrGen fs fileName cwd parse fromRaw genRaw = .ok ((cfg, o), fs') →
      (o = .loaded ↔ ∃ k, k ≤ cwd.length ∧
        fs.pathExists (cwd.take k ++ [fileName]) = true)) ∧
    (∀ r, discoverRoot fs fileName cwd = some r →
      (∃ k, k ≤ cwd.length ∧ r = cwd.take k) ∧
      fs.pathExists (r ++ [fileName]) = true ∧
      (∀ k, k ≤ cwd.length → r.length < k →
        fs.pathExists (cwd.take k ++ [fileName]) = false) ∧
      ∀ raw cfg, parse r = .ok raw → fromRaw r raw = .ok cfg →
        loadOrGen fs fileName cwd parse fromRaw genRaw = .ok ((cfg, .loaded), fs)) ∧
    ((∀ k, k ≤ cwd.length → fs.pathExists (cwd.take k ++ [fileName]) = false) →
      ∀ raw cfg, genRaw = .ok raw → fromRaw cwd raw = .ok cfg →
        loadOrGen fs fileName cwd parse fromRaw genRaw =
          .ok ((cfg, .freshlyMinted), ⟨(cwd ++ [fileName]) :: fs.files⟩)) := by
  refine ⟨?_, ?_, ?_⟩
  · intro cfg o fs' h
    unfold loadOrGen at h
    cases hdr : discoverRoot fs fileName cwd with
    | some r =>
      simp only [hdr] at h
      obtain ⟨⟨k, hk, hrk⟩, hexr, -⟩ := discoverRoot_found fs fileName cwd r hdr
      cases hp : parse r with
      | error e => simp only [hp] at h; exact Except.noConfusion h
      | ok raw =>
        simp only [hp] at h
        cases hf : fromRaw r raw with
        | error e => simp only [hf] at h; exact Except.noConfusion h
        | ok cfg' =>
          simp only [hf] at h
          injection h with h'
          injection h' with h1 h2
          injection h1 with hcfg ho
          subst ho
          simp only [true_iff]
          exact ⟨k, hk, by rw [← hrk]; exact hexr⟩
    | none =>
      simp only [hdr] at h
      cases hg : genRaw with
      | error e => simp only [hg] at h; exact Except.noConfusion h
      | ok raw =>
        simp only [hg] at h
        cases hf : fromRaw cwd raw with
        | error e => simp only [hf] at h; exact Except.noConfusion h
        | ok cfg' =>
          simp only [hf] at h
          injection h with h'
          injection h' with h1 h2
          injection h1 with hcfg ho
          subst ho
          constructor
          · intro hcon
            exact Origin.noConfusion hcon
          · rintro ⟨k, hk, hex⟩
            have := discoverRoot_none fs fileName cwd hdr k hk
            rw [hex] at this
            exact Bool.noConfusion this
  · intro r hdr
    obtain ⟨hanc, hexr, hmin⟩ := discoverRoot_found fs fileName cwd r hdr
    refine ⟨hanc, hexr, hmin, ?_⟩
    intro raw cfg hp hf
    simp only [loadOrGen, hdr, hp, hf]
  · intro hnone raw cfg hg hf
    have hdr : discoverRoot fs fileName cwd = none := by
      cases hdr : discoverRoot fs fileName cwd with
      | none => rfl
      | some r =>
        obtain ⟨⟨k, hk, hrk⟩, hexr, -⟩ := discoverRoot_found fs fileName cwd r hdr
        have := hnone k hk
        rw [← hrk] at this
        rw [this] at hexr
        exact Bool.noConfusion hexr
    simp only [loadOrGen, hdr, hg, hf]

/-- C7 witness: with an empty filesystem and working directory `/a`, no
ancestor holds the config file, so a fresh config is generated, written,
and returned as freshly minted. -/
theorem load_or_gen_spec_witness :
    @loadOrGen Nat Nat Unit Unit Unit ⟨[]⟩ "cargo-mobile.toml" ["a"]
        (fun _ => Except.ok 0) (fun _ n => Except.ok n) (Except.ok 7) =
      .ok ((7, .freshlyMinted), ⟨[["a", "cargo-mobile.toml"]]⟩) := by
  have h := (@load_or_gen_spec Nat Nat Unit Unit Unit ⟨[]⟩ "cargo-mobile.toml" ["a"]
    (fun _ => Except.ok 0) (fun _ n => Except.ok n) (Except.ok 7)).2.2
  refine h ?_ 7 7 rfl rfl
  intro k hk
  have hk1 : k ≤ 1 := by simpa using hk
  interval_cases k <;> decide

end CargoMobile
